import Mathlib

/-!
Verification of the two algorithmic cores of the Linggango Russian Translation
repository:

* `scripts/sync_translations.py` — `has_russian` and `merge_recursive`,
  the recursive tree merger for JSON translation trees;
* `scripts/fix_capitalization.py` — `fix_sentence_case` and `fix_value`,
  the Russian sentence-case normalizer.

JSON documents are modelled by the inductive type `JSON` (mappings as
order-preserving association lists, sequences as lists, leaves as
string / integer / boolean / null; numbers are opaque to both transforms,
so an integer payload loses no generality).  Python strings are modelled
as `String` (lists of unicode scalar values), scanned as `List Char`.
-/

/-! ## Character model

`RUSSIAN_RE = re.compile(r'[а-яА-ЯёЁ]')` appears identically in both
scripts.  The three alphabet sets of `fix_capitalization.py` are

* `RUSSIAN_UPPER = frozenset('АБВГДЕЁЖЗИЙКЛМНОПРСТУФХЦЧШЩЪЫЬЭЮЯ')`,
  which is exactly the contiguous block U+0410..U+042F plus Ё (U+0401);
* `RUSSIAN_LOWER = frozenset('абвгдеёжзийклмнопрстуфхцчшщъыьэюя')`,
  which is exactly U+0430..U+044F plus ё (U+0451);
* `RUSSIAN_ALL = RUSSIAN_UPPER | RUSSIAN_LOWER`.

All are decidable codepoint tests.
-/

/-- Membership in `RUSSIAN_UPPER` (А..Я, U+0410..U+042F, plus Ё, U+0401). -/
def isRussianUpper (c : Char) : Bool :=
  decide ((0x410 ≤ c.toNat ∧ c.toNat ≤ 0x42F) ∨ c.toNat = 0x401)

/-- Membership in `RUSSIAN_LOWER` (а..я, U+0430..U+044F, plus ё, U+0451). -/
def isRussianLower (c : Char) : Bool :=
  decide ((0x430 ≤ c.toNat ∧ c.toNat ≤ 0x44F) ∨ c.toNat = 0x451)

/-- Membership in `RUSSIAN_ALL = RUSSIAN_UPPER | RUSSIAN_LOWER`. -/
def isRussianAll (c : Char) : Bool :=
  isRussianUpper c || isRussianLower c

/-- One-character match of the regex `[а-яА-ЯёЁ]` (`RUSSIAN_RE`). -/
def isRussianChar (c : Char) : Bool :=
  decide ((0x430 ≤ c.toNat ∧ c.toNat ≤ 0x44F) ∨ (0x410 ≤ c.toNat ∧ c.toNat ≤ 0x42F) ∨
    c.toNat = 0x451 ∨ c.toNat = 0x401)

/-- Python's `str.upper()` restricted to single characters of the Cyrillic
letters on which the scripts invoke it (the identity elsewhere): the Unicode
simple uppercase mapping а..я ↦ А..Я (subtract 32) and ё ↦ Ё. -/
def ruUpper (c : Char) : Char :=
  if 0x430 ≤ c.toNat ∧ c.toNat ≤ 0x44F then Char.ofNat (c.toNat - 32)
  else if c.toNat = 0x451 then Char.ofNat 0x401
  else c

/-- Python's `str.lower()` restricted to single characters of the Cyrillic
letters on which the scripts invoke it (the identity elsewhere): the Unicode
simple lowercase mapping А..Я ↦ а..я (add 32) and Ё ↦ ё. -/
def ruLower (c : Char) : Char :=
  if 0x410 ≤ c.toNat ∧ c.toNat ≤ 0x42F then Char.ofNat (c.toNat + 32)
  else if c.toNat = 0x401 then Char.ofNat 0x451
  else c

/-- Python's `str.isalpha()` over the character repertoire this development
models (ASCII plus the Unicode Cyrillic block U+0400..U+04FF, which covers
every character class the two scripts distinguish).  All claims are settled
over strings drawn from this repertoire. -/
def pyIsAlpha (c : Char) : Bool :=
  decide ((0x41 ≤ c.toNat ∧ c.toNat ≤ 0x5A) ∨ (0x61 ≤ c.toNat ∧ c.toNat ≤ 0x7A) ∨
    (0x400 ≤ c.toNat ∧ c.toNat ≤ 0x4FF))

/-- The function `has_russian(text)` of `sync_translations.py`:
`bool(RUSSIAN_RE.search(text))`.  The same test guards
`fix_sentence_case` in `fix_capitalization.py`. -/
def has_russian (s : String) : Bool :=
  s.data.any isRussianChar

/-! ## JSON data model -/

/-- A JSON-compatible document: order-preserving mappings, sequences, and
string / number / boolean / null leaves. -/
inductive JSON where
  | obj  : List (String × JSON) → JSON
  | arr  : List JSON → JSON
  | str  : String → JSON
  | num  : Int → JSON
  | bool : Bool → JSON
  | null : JSON

/-- Python dict lookup (`key in resource` / `resource[key]`) on the
association-list model of a mapping: first entry with the given key. -/
def lookupJ (k : String) : List (String × JSON) → Option JSON
  | [] => none
  | (k2, v) :: rest => if k2 = k then some v else lookupJ k rest

/-! ## `merge_recursive` of `sync_translations.py`

```python
def merge_recursive(artifact, resource):
    if isinstance(artifact, dict) and isinstance(resource, dict):
        result = {}
        for key in artifact:
            if key in resource:
                result[key] = merge_recursive(artifact[key], resource[key])
            else:
                result[key] = artifact[key]
        return result
    if isinstance(artifact, list) and isinstance(resource, list):
        result = []
        for i in range(max(len(artifact), len(resource))):
            if i < len(artifact) and i < len(resource):
                result.append(merge_recursive(artifact[i], resource[i]))
            elif i < len(artifact):
                result.append(artifact[i])
        return result
    if isinstance(artifact, str):
        if has_russian(artifact):
            return artifact
        if isinstance(resource, str):
            return resource
        return artifact
    return artifact
```

The dict loop is `mergeObj`, the list loop is `mergeArr` (indices where only
the artifact side is present append `artifact[i]` unchanged; indices present
only on the resource side append nothing). -/

mutual

/-- The merger `merge_recursive(artifact, resource)`. -/
def merge_recursive : JSON → JSON → JSON
  | .obj a, .obj r => .obj (mergeObj a r)
  | .arr a, .arr r => .arr (mergeArr a r)
  | .str s, r =>
      if has_russian s then .str s
      else match r with
        | .str t => .str t
        | _ => .str s
  | a, _ => a

/-- The dict branch of `merge_recursive`: iterate over the artifact entries
in order, merging with the resource value when the key is present there. -/
def mergeObj : List (String × JSON) → List (String × JSON) → List (String × JSON)
  | [], _ => []
  | (k, v) :: rest, r =>
      (k, match lookupJ k r with
          | some rv => merge_recursive v rv
          | none => v) :: mergeObj rest r

/-- The list branch of `merge_recursive`: merge elementwise while both sides
have the index, then append the artifact tail unchanged; a longer resource
tail contributes nothing. -/
def mergeArr : List JSON → List JSON → List JSON
  | [], _ => []
  | a :: as2, [] => a :: as2
  | a :: as2, r :: rs => merge_recursive a r :: mergeArr as2 rs

end

/-! ## `fix_sentence_case` of `fix_capitalization.py`

The scanning loop (lines 38-121 of the script) is modelled by `fixLoop`:
`rest` is the unread suffix of the input (`text[i:]`), `acc` is the output
accumulator `result` in reverse order, `atStart` is `at_sentence_start`.
Each iteration appends exactly the characters it consumes, so at every loop
head `len(result) = i`; the sentence-punctuation look-back reads
`result[len(result) - 2]` and `result[len(result) - 3]` after the just-read
punctuation character is appended, i.e. the top two entries of `acc` before
it is appended.
-/

/-- The whitespace skip `j = i; while j < n and text[j] in ' \t': j += 1`
after sentence punctuation; only `j > i`, i.e. positivity, is consumed. -/
def countLeadingWs : List Char → Nat
  | c :: rest => if c = ' ' ∨ c = '\t' then countLeadingWs rest + 1 else 0
  | [] => 0

/-- Membership in the look-back set `' \t.!?'`. -/
def isStopChar (c : Char) : Bool :=
  decide (c = ' ' ∨ c = '\t' ∨ c = '.' ∨ c = '!' ∨ c = '?')

/-- Membership in the word-span delimiter set `' \t\n'`. -/
def isWordWs (c : Char) : Bool :=
  decide (c = ' ' ∨ c = '\t' ∨ c = '\n')

/-- The all-caps check of lines 96-102: scan the rest of the current word
span (`while j < n and text[j] not in ' \t\n'`) for a lowercase Russian
letter, stopping early when one is found. -/
def wordHasLowerRussian (rest : List Char) : Bool :=
  (rest.takeWhile (fun c => !isWordWs c)).any isRussianLower

/-- The look-back decision of lines 65-77, on the top two accumulator
entries at the moment the punctuation character has just been appended
(`p1` = character before the punctuation, or `none` when `k < 0`;
`p2` = the one before that, or `none` when `k <= 0`). -/
def dotNewState (p1 p2 : Option Char) (st : Bool) : Bool :=
  match p1 with
  | some kc =>
      if isRussianAll kc then
        match p2 with
        | none => st
        | some bk => if isStopChar bk then st else true
      else true
  | none => true

/-- The scanning loop of `fix_sentence_case` (see the section comment). -/
def fixLoop : List Char → List Char → Bool → List Char
  | [], acc, _ => acc.reverse
  | c :: rest, acc, atStart =>
    if c = '§' then
      -- line 42: `if c == '§' and i + 1 < n`; with no following character
      -- every later branch also fails for '§' and the final catch-all
      -- emits it literally with the state unchanged
      match rest with
      | d :: rest2 => fixLoop rest2 (d :: c :: acc) atStart
      | [] => fixLoop [] (c :: acc) atStart
    else if c = '\n' then
      fixLoop rest (c :: acc) true
    else if c = '.' ∨ c = '!' ∨ c = '?' then
      -- after the punctuation is appended, `result[len(result) - 2]` is the
      -- accumulator head and `result[len(result) - 3]` the entry below it;
      -- `dotNewState` (below) is the look-back of lines 65-77 on those two
      fixLoop rest (c :: acc)
        (if 0 < countLeadingWs rest then dotNewState acc.head? acc.tail.head? atStart
         else atStart)
    else if c = ' ' ∨ c = '\t' then
      fixLoop rest (c :: acc) atStart
    else if isRussianAll c then
      if atStart then fixLoop rest (ruUpper c :: acc) false
      else if isRussianUpper c then
        fixLoop rest ((if wordHasLowerRussian rest then ruLower c else c) :: acc) false
      else fixLoop rest (c :: acc) false
    else if pyIsAlpha c then
      fixLoop rest (c :: acc) false
    else
      fixLoop rest (c :: acc) atStart

/-- Accumulator-free view of `fixLoop`: instead of the whole reversed
`result`, only the top two entries (`p1`, `p2`) are threaded, which is all
the look-back reads.  `fixLoop_eq_fixAux` proves the two agree. -/
def fixAux : List Char → Bool → Option Char → Option Char → List Char
  | [], _, _, _ => []
  | c :: rest, atStart, p1, p2 =>
    if c = '§' then
      match rest with
      | d :: rest2 => c :: d :: fixAux rest2 atStart (some d) (some c)
      | [] => c :: fixAux [] atStart (some c) p1
    else if c = '\n' then
      c :: fixAux rest true (some c) p1
    else if c = '.' ∨ c = '!' ∨ c = '?' then
      c :: fixAux rest (if 0 < countLeadingWs rest then dotNewState p1 p2 atStart else atStart)
        (some c) p1
    else if c = ' ' ∨ c = '\t' then
      c :: fixAux rest atStart (some c) p1
    else if isRussianAll c then
      if atStart then ruUpper c :: fixAux rest false (some (ruUpper c)) p1
      else if isRussianUpper c then
        (if wordHasLowerRussian rest then ruLower c else c) ::
          fixAux rest false (some (if wordHasLowerRussian rest then ruLower c else c)) p1
      else c :: fixAux rest false (some c) p1
    else if pyIsAlpha c then
      c :: fixAux rest false (some c) p1
    else
      c :: fixAux rest atStart (some c) p1

/-- The function `fix_sentence_case(text)`: fast path when the string has no
Russian letter, otherwise the scan starting at sentence start with an empty
accumulator. -/
def fix_sentence_case (s : String) : String :=
  if has_russian s then String.mk (fixLoop s.data [] true) else s

/-! ## `fix_value` of `fix_capitalization.py`

```python
def fix_value(obj):
    if isinstance(obj, str):
        return fix_sentence_case(obj)
    if isinstance(obj, dict):
        return {k: fix_value(v) for k, v in obj.items()}
    if isinstance(obj, list):
        return [fix_value(item) for item in obj]
    return obj
```
-/

mutual

/-- The document normalizer `fix_value(obj)`. -/
def fix_value : JSON → JSON
  | .str s => .str (fix_sentence_case s)
  | .obj kvs => .obj (fixKVs kvs)
  | .arr xs => .arr (fixList xs)
  | x => x

/-- The dict comprehension of `fix_value`. -/
def fixKVs : List (String × JSON) → List (String × JSON)
  | [] => []
  | (k, v) :: rest => (k, fix_value v) :: fixKVs rest

/-- The list comprehension of `fix_value`. -/
def fixList : List JSON → List JSON
  | [] => []
  | x :: rest => fix_value x :: fixList rest

end

/-! ## Auxiliary notions used only to state claims -/

/-- A step into a JSON tree: a mapping key or a sequence index. -/
def PathStep : Type := String ⊕ Nat

/-- Follow a path of steps down a JSON tree. -/
def getAt : JSON → List PathStep → Option JSON
  | v, [] => some v
  | .obj kvs, .inl k :: p =>
      match lookupJ k kvs with
      | some v => getAt v p
      | none => none
  | .arr xs, .inr i :: p =>
      match xs[i]? with
      | some v => getAt v p
      | none => none
  | _, _ => none

/-- The key list of a mapping, in order. -/
def keysOf (kvs : List (String × JSON)) : List String :=
  kvs.map Prod.fst

/-- Key lists with no duplicates. -/
def nodupKeys : List String → Bool
  | [] => true
  | k :: rest => !rest.contains k && nodupKeys rest

mutual

/-- Well-formedness of a document as produced by a JSON parser: every
mapping has pairwise-distinct keys (Python dicts cannot hold duplicates). -/
def wfJSON : JSON → Bool
  | .obj kvs => nodupKeys (keysOf kvs) && wfKVs kvs
  | .arr xs => wfList xs
  | _ => true

/-- Well-formedness of mapping entries. -/
def wfKVs : List (String × JSON) → Bool
  | [] => true
  | (_, v) :: rest => wfJSON v && wfKVs rest

/-- Well-formedness of sequence elements. -/
def wfList : List JSON → Bool
  | [] => true
  | x :: rest => wfJSON x && wfList rest

end

mutual

/-- Erase every string leaf to `""`, keeping everything else: two documents
have the same erasure exactly when they agree on structure, key lists,
sequence lengths and non-string leaves. -/
def stringsErased : JSON → JSON
  | .str _ => .str ""
  | .obj kvs => .obj (eraseKVs kvs)
  | .arr xs => .arr (eraseList xs)
  | x => x

/-- Entry-wise erasure of mapping values. -/
def eraseKVs : List (String × JSON) → List (String × JSON)
  | [] => []
  | (k, v) :: rest => (k, stringsErased v) :: eraseKVs rest

/-- Element-wise erasure of sequence elements. -/
def eraseList : List JSON → List JSON
  | [] => []
  | x :: rest => stringsErased x :: eraseList rest

end

/-! ## Character-level lemmas -/

theorem toNat_ofNat_valid (n : Nat) (h : n < 55296) : (Char.ofNat n).toNat = n := by
  have hv : Nat.isValidChar n := Or.inl h
  simp [Char.ofNat, hv, Char.ofNatAux, Char.toNat, UInt32.toNat]

theorem isRussianUpper_iff (c : Char) :
    isRussianUpper c = true ↔ ((0x410 ≤ c.toNat ∧ c.toNat ≤ 0x42F) ∨ c.toNat = 0x401) := by
  simp [isRussianUpper]

theorem isRussianLower_iff (c : Char) :
    isRussianLower c = true ↔ ((0x430 ≤ c.toNat ∧ c.toNat ≤ 0x44F) ∨ c.toNat = 0x451) := by
  simp [isRussianLower]

theorem isRussianAll_iff (c : Char) :
    isRussianAll c = true ↔
      ((0x410 ≤ c.toNat ∧ c.toNat ≤ 0x42F) ∨ c.toNat = 0x401 ∨
        (0x430 ≤ c.toNat ∧ c.toNat ≤ 0x44F) ∨ c.toNat = 0x451) := by
  simp [isRussianAll, isRussianUpper, isRussianLower]
  tauto

theorem isRussianChar_eq_isRussianAll (c : Char) : isRussianChar c = isRussianAll c := by
  have h1 : isRussianChar c = true ↔ isRussianAll c = true := by
    rw [isRussianAll_iff]
    simp [isRussianChar]
    tauto
  cases h : isRussianChar c
  · cases h2 : isRussianAll c
    · rfl
    · exact absurd (h1.mpr h2) (by simp [h])
  · exact (h1.mp h).symm

theorem isRussianAll_bounds (c : Char) (h : isRussianAll c = true) :
    0x401 ≤ c.toNat ∧ c.toNat ≤ 0x451 := by
  rcases (isRussianAll_iff c).mp h with h' | h' | h' | h' <;> omega

theorem toNat_ruUpper (c : Char) :
    (ruUpper c).toNat =
      if 0x430 ≤ c.toNat ∧ c.toNat ≤ 0x44F then c.toNat - 32
      else if c.toNat = 0x451 then 0x401
      else c.toNat := by
  by_cases h1 : 0x430 ≤ c.toNat ∧ c.toNat ≤ 0x44F
  · simp only [ruUpper, if_pos h1]
    exact toNat_ofNat_valid _ (by omega)
  · by_cases h2 : c.toNat = 0x451
    · simp only [ruUpper, if_neg h1, if_pos h2]
      exact toNat_ofNat_valid _ (by omega)
    · simp [ruUpper, h1, h2]

theorem toNat_ruLower (c : Char) :
    (ruLower c).toNat =
      if 0x410 ≤ c.toNat ∧ c.toNat ≤ 0x42F then c.toNat + 32
      else if c.toNat = 0x401 then 0x451
      else c.toNat := by
  by_cases h1 : 0x410 ≤ c.toNat ∧ c.toNat ≤ 0x42F
  · simp only [ruLower, if_pos h1]
    exact toNat_ofNat_valid _ (by omega)
  · by_cases h2 : c.toNat = 0x401
    · simp only [ruLower, if_neg h1, if_pos h2]
      exact toNat_ofNat_valid _ (by omega)
    · simp [ruLower, h1, h2]

theorem isRussianUpper_ruUpper (c : Char) (h : isRussianAll c = true) :
    isRussianUpper (ruUpper c) = true := by
  rw [isRussianUpper_iff, toNat_ruUpper]
  rcases (isRussianAll_iff c).mp h with h' | h' | h' | h' <;> split_ifs <;> omega

theorem isRussianAll_ruUpper (c : Char) (h : isRussianAll c = true) :
    isRussianAll (ruUpper c) = true := by
  simp [isRussianAll, isRussianUpper_ruUpper c h]

theorem isRussianLower_ruLower (c : Char) (h : isRussianUpper c = true) :
    isRussianLower (ruLower c) = true := by
  rw [isRussianLower_iff, toNat_ruLower]
  rcases (isRussianUpper_iff c).mp h with h' | h' <;> split_ifs <;> omega

theorem isRussianAll_ruLower (c : Char) (h : isRussianUpper c = true) :
    isRussianAll (ruLower c) = true := by
  simp [isRussianAll, isRussianLower_ruLower c h]

theorem isRussianUpper_ruLower (c : Char) (h : isRussianUpper c = true) :
    isRussianUpper (ruLower c) = false := by
  have h2 := toNat_ruLower c
  rcases (isRussianUpper_iff c).mp h with h' | h'
  · rw [if_pos (by omega)] at h2
    cases h3 : isRussianUpper (ruLower c)
    · rfl
    · exact absurd ((isRussianUpper_iff _).mp h3) (by omega)
  · rw [if_neg (by omega), if_pos h'] at h2
    cases h3 : isRussianUpper (ruLower c)
    · rfl
    · exact absurd ((isRussianUpper_iff _).mp h3) (by omega)

theorem lower_not_upper (c : Char) (h : isRussianLower c = true) :
    isRussianUpper c = false := by
  have h1 := (isRussianLower_iff c).mp h
  cases h2 : isRussianUpper c
  · rfl
  · exact absurd ((isRussianUpper_iff c).mp h2) (by omega)

theorem ruUpper_of_upper (c : Char) (h : isRussianUpper c = true) : ruUpper c = c := by
  have h1 := (isRussianUpper_iff c).mp h
  simp only [ruUpper]
  rw [if_neg (by omega), if_neg (by omega)]

theorem ruUpper_ruUpper (c : Char) (h : isRussianAll c = true) :
    ruUpper (ruUpper c) = ruUpper c :=
  ruUpper_of_upper _ (isRussianUpper_ruUpper c h)

theorem ruLower_ne_self (c : Char) (h : isRussianUpper c = true) : ruLower c ≠ c := by
  intro heq
  have h2 := toNat_ruLower c
  rw [heq] at h2
  rcases (isRussianUpper_iff c).mp h with h' | h' <;> split_ifs at h2 <;> omega

/-- A Russian letter fails every branch condition that precedes the Russian
branch of the scan, and is not a word-span delimiter. -/
theorem russian_not_special (c : Char) (h : isRussianAll c = true) :
    ¬(c = '§') ∧ ¬(c = '\n') ∧ ¬(c = '.' ∨ c = '!' ∨ c = '?') ∧ ¬(c = ' ' ∨ c = '\t') ∧
      isWordWs c = false := by
  have hb := isRussianAll_bounds c h
  refine ⟨?_, ?_, ?_, ?_, ?_⟩
  · rintro rfl; exact absurd hb (by decide)
  · rintro rfl; exact absurd hb (by decide)
  · rintro (rfl | rfl | rfl) <;> exact absurd hb (by decide)
  · rintro (rfl | rfl) <;> exact absurd hb (by decide)
  · cases h2 : isWordWs c
    · rfl
    · simp [isWordWs] at h2
      rcases h2 with rfl | rfl | rfl <;> exact absurd hb (by decide)

/-! ## Scan lemmas -/

theorem wordHasLowerRussian_nil : wordHasLowerRussian [] = false := rfl

theorem wordHasLowerRussian_cons (c : Char) (l : List Char) :
    wordHasLowerRussian (c :: l) =
      if isWordWs c then false else (isRussianLower c || wordHasLowerRussian l) := by
  simp only [wordHasLowerRussian, List.takeWhile_cons]
  cases h : isWordWs c <;> simp [h]

theorem countLeadingWs_pos_iff (l : List Char) :
    0 < countLeadingWs l ↔ ∃ c t, l = c :: t ∧ (c = ' ' ∨ c = '\t') := by
  cases l with
  | nil => simp [countLeadingWs]
  | cons c t =>
    by_cases h : c = ' ' ∨ c = '\t' <;> simp [countLeadingWs, h]

theorem fixAux_nil (st : Bool) (p1 p2 : Option Char) : fixAux [] st p1 p2 = [] := rfl

theorem fixAux_cons (c : Char) (rest : List Char) (st : Bool) (p1 p2 : Option Char) :
    fixAux (c :: rest) st p1 p2 =
      (if c = '§' then
        match rest with
        | d :: rest2 => c :: d :: fixAux rest2 st (some d) (some c)
        | [] => c :: fixAux [] st (some c) p1
      else if c = '\n' then
        c :: fixAux rest true (some c) p1
      else if c = '.' ∨ c = '!' ∨ c = '?' then
        c :: fixAux rest (if 0 < countLeadingWs rest then dotNewState p1 p2 st else st)
          (some c) p1
      else if c = ' ' ∨ c = '\t' then
        c :: fixAux rest st (some c) p1
      else if isRussianAll c then
        if st then ruUpper c :: fixAux rest false (some (ruUpper c)) p1
        else if isRussianUpper c then
          (if wordHasLowerRussian rest then ruLower c else c) ::
            fixAux rest false (some (if wordHasLowerRussian rest then ruLower c else c)) p1
        else c :: fixAux rest false (some c) p1
      else if pyIsAlpha c then
        c :: fixAux rest false (some c) p1
      else
        c :: fixAux rest st (some c) p1) := by
  rw [fixAux.eq_def]

theorem fixLoop_nil (acc : List Char) (st : Bool) : fixLoop [] acc st = acc.reverse := rfl

theorem fixLoop_cons (c : Char) (rest : List Char) (acc : List Char) (atStart : Bool) :
    fixLoop (c :: rest) acc atStart =
      (if c = '§' then
        match rest with
        | d :: rest2 => fixLoop rest2 (d :: c :: acc) atStart
        | [] => fixLoop [] (c :: acc) atStart
      else if c = '\n' then
        fixLoop rest (c :: acc) true
      else if c = '.' ∨ c = '!' ∨ c = '?' then
        fixLoop rest (c :: acc)
          (if 0 < countLeadingWs rest then dotNewState acc.head? acc.tail.head? atStart
           else atStart)
      else if c = ' ' ∨ c = '\t' then
        fixLoop rest (c :: acc) atStart
      else if isRussianAll c then
        if atStart then fixLoop rest (ruUpper c :: acc) false
        else if isRussianUpper c then
          fixLoop rest ((if wordHasLowerRussian rest then ruLower c else c) :: acc) false
        else fixLoop rest (c :: acc) false
      else if pyIsAlpha c then
        fixLoop rest (c :: acc) false
      else
        fixLoop rest (c :: acc) atStart) := by
  rw [fixLoop.eq_def]

/-- The first character emitted for a consumed character `c` is `c` itself or,
when `c` is Russian, possibly its case image. -/
theorem fixAux_shape (c : Char) (rest : List Char) (st : Bool) (p1 p2 : Option Char) :
    ∃ e t, fixAux (c :: rest) st p1 p2 = e :: t ∧
      (e = c ∨ (isRussianAll c = true ∧ (e = ruUpper c ∨ e = ruLower c))) := by
  rw [fixAux_cons]
  by_cases h1 : c = '§'
  · rw [if_pos h1]
    cases rest with
    | nil => exact ⟨c, _, rfl, Or.inl rfl⟩
    | cons d r2 => exact ⟨c, _, rfl, Or.inl rfl⟩
  · rw [if_neg h1]
    by_cases h2 : c = '\n'
    · rw [if_pos h2]; exact ⟨c, _, rfl, Or.inl rfl⟩
    · rw [if_neg h2]
      by_cases h3 : c = '.' ∨ c = '!' ∨ c = '?'
      · rw [if_pos h3]; exact ⟨c, _, rfl, Or.inl rfl⟩
      · rw [if_neg h3]
        by_cases h4 : c = ' ' ∨ c = '\t'
        · rw [if_pos h4]; exact ⟨c, _, rfl, Or.inl rfl⟩
        · rw [if_neg h4]
          by_cases h5 : isRussianAll c
          · rw [if_pos h5]
            by_cases h6 : st
            · rw [if_pos h6]; exact ⟨ruUpper c, _, rfl, Or.inr ⟨h5, Or.inl rfl⟩⟩
            · rw [if_neg h6]
              by_cases h7 : isRussianUpper c
              · rw [if_pos h7]
                by_cases h8 : wordHasLowerRussian rest
                · rw [if_pos h8]; exact ⟨ruLower c, _, rfl, Or.inr ⟨h5, Or.inr rfl⟩⟩
                · rw [if_neg h8]; exact ⟨c, _, rfl, Or.inl rfl⟩
              · rw [if_neg h7]; exact ⟨c, _, rfl, Or.inl rfl⟩
          · rw [if_neg h5]
            by_cases h6 : pyIsAlpha c
            · rw [if_pos h6]; exact ⟨c, _, rfl, Or.inl rfl⟩
            · rw [if_neg h6]; exact ⟨c, _, rfl, Or.inl rfl⟩

/-- The scan preserves whether the next unread character is a space or tab. -/
theorem countLeadingWs_pos_fixAux (T : List Char) (st : Bool) (p1 p2 : Option Char) :
    (0 < countLeadingWs (fixAux T st p1 p2)) ↔ (0 < countLeadingWs T) := by
  cases T with
  | nil => simp [fixAux]
  | cons c rest =>
    obtain ⟨e, t, he, hcl⟩ := fixAux_shape c rest st p1 p2
    rw [he]
    have hiff : (e = ' ' ∨ e = '\t') ↔ (c = ' ' ∨ c = '\t') := by
      rcases hcl with rfl | ⟨hall, hcase⟩
      · exact Iff.rfl
      · have hc := (russian_not_special c hall).2.2.2.1
        have he2 : isRussianAll e = true := by
          rcases hcase with rfl | rfl
          · exact isRussianAll_ruUpper c hall
          · rcases Bool.eq_false_or_eq_true (isRussianUpper c) with hu | hu
            · exact isRussianAll_ruLower c hu
            · -- c Russian but not upper: ruLower c = c is not needed; c lower
              -- means ruLower leaves the codepoint ranges intact
              rw [isRussianAll_iff, toNat_ruLower]
              have hb := (isRussianAll_iff c).mp hall
              have hu2 : ¬((0x410 ≤ c.toNat ∧ c.toNat ≤ 0x42F) ∨ c.toNat = 0x401) := by
                intro hx
                exact absurd ((isRussianUpper_iff c).mpr hx) (by simp [hu])
              split_ifs <;> omega
        have he3 := (russian_not_special e he2).2.2.2.1
        constructor
        · intro hx; exact absurd hx he3
        · intro hx; exact absurd hx hc
    rw [countLeadingWs_pos_iff, countLeadingWs_pos_iff]
    constructor
    · rintro ⟨c2, t2, heq, hw⟩
      obtain ⟨rfl, rfl⟩ : c2 = e ∧ t2 = t := by
        constructor <;> [exact (List.cons.injEq .. ▸ heq).1.symm; exact (List.cons.injEq .. ▸ heq).2.symm]
      exact ⟨c, rest, rfl, hiff.mp hw⟩
    · rintro ⟨c2, t2, heq, hw⟩
      obtain ⟨rfl, rfl⟩ : c2 = c ∧ t2 = rest := by
        constructor <;> [exact (List.cons.injEq .. ▸ heq).1.symm; exact (List.cons.injEq .. ▸ heq).2.symm]
      exact ⟨e, t, rfl, hiff.mpr hw⟩

/-! ## Bridge between the accumulator loop and its two-register view -/

theorem fixLoop_eq_fixAux_fuel :
    ∀ (n : Nat) (T : List Char), T.length ≤ n → ∀ (acc : List Char) (st : Bool),
      fixLoop T acc st = acc.reverse ++ fixAux T st acc.head? acc.tail.head? := by
  intro n
  induction n with
  | zero =>
    intro T hT acc st
    have hnil : T = [] := List.length_eq_zero.mp (Nat.le_zero.mp hT)
    subst hnil
    simp [fixLoop_nil, fixAux_nil]
  | succ n ih =>
    intro T hT acc st
    cases T with
    | nil => simp [fixLoop_nil, fixAux_nil]
    | cons c rest =>
      have hlen : rest.length ≤ n := by
        simp only [List.length_cons] at hT
        omega
      rw [fixLoop_cons, fixAux_cons]
      by_cases h1 : c = '§'
      · rw [if_pos h1, if_pos h1]
        cases rest with
        | nil => simp [fixLoop_nil, fixAux_nil]
        | cons d rest2 =>
          have hlen2 : rest2.length ≤ n := by
            simp only [List.length_cons] at hT
            omega
          simp [ih rest2 hlen2]
      · rw [if_neg h1, if_neg h1]
        by_cases h2 : c = '\n'
        · rw [if_pos h2, if_pos h2, ih rest hlen]
          simp
        · rw [if_neg h2, if_neg h2]
          by_cases h3 : c = '.' ∨ c = '!' ∨ c = '?'
          · rw [if_pos h3, if_pos h3, ih rest hlen]
            simp
          · rw [if_neg h3, if_neg h3]
            by_cases h4 : c = ' ' ∨ c = '\t'
            · rw [if_pos h4, if_pos h4, ih rest hlen]
              simp
            · rw [if_neg h4, if_neg h4]
              by_cases h5 : isRussianAll c
              · rw [if_pos h5, if_pos h5]
                by_cases h6 : st
                · rw [if_pos h6, if_pos h6, ih rest hlen]
                  simp
                · rw [if_neg h6, if_neg h6]
                  by_cases h7 : isRussianUpper c
                  · rw [if_pos h7, if_pos h7, ih rest hlen]
                    simp
                  · rw [if_neg h7, if_neg h7, ih rest hlen]
                    simp
              · rw [if_neg h5, if_neg h5]
                by_cases h6 : pyIsAlpha c
                · rw [if_pos h6, if_pos h6, ih rest hlen]
                  simp
                · rw [if_neg h6, if_neg h6, ih rest hlen]
                  simp

theorem fixLoop_eq_fixAux (T : List Char) (acc : List Char) (st : Bool) :
    fixLoop T acc st = acc.reverse ++ fixAux T st acc.head? acc.tail.head? :=
  fixLoop_eq_fixAux_fuel T.length T le_rfl acc st

theorem fix_sentence_case_eq (s : String) :
    fix_sentence_case s =
      if has_russian s then String.mk (fixAux s.data true none none) else s := by
  rw [fix_sentence_case, fixLoop_eq_fixAux]
  rfl

/-! ## The scan preserves which characters are Russian -/

theorem fixAux_any_russian_fuel :
    ∀ (n : Nat) (T : List Char), T.length ≤ n → ∀ (st : Bool) (p1 p2 : Option Char),
      (fixAux T st p1 p2).any isRussianChar = T.any isRussianChar := by
  intro n
  induction n with
  | zero =>
    intro T hT st p1 p2
    have hnil : T = [] := List.length_eq_zero.mp (Nat.le_zero.mp hT)
    subst hnil
    rfl
  | succ n ih =>
    intro T hT st p1 p2
    cases T with
    | nil => rfl
    | cons c rest =>
      have hlen : rest.length ≤ n := by
        simp only [List.length_cons] at hT
        omega
      rw [fixAux_cons]
      by_cases h1 : c = '§'
      · rw [if_pos h1]
        cases rest with
        | nil => simp [fixAux_nil]
        | cons d rest2 =>
          have hlen2 : rest2.length ≤ n := by
            simp only [List.length_cons] at hT
            omega
          simp [ih rest2 hlen2]
      · rw [if_neg h1]
        by_cases h2 : c = '\n'
        · rw [if_pos h2]
          simp [ih rest hlen]
        · rw [if_neg h2]
          by_cases h3 : c = '.' ∨ c = '!' ∨ c = '?'
          · rw [if_pos h3]
            simp [ih rest hlen]
          · rw [if_neg h3]
            by_cases h4 : c = ' ' ∨ c = '\t'
            · rw [if_pos h4]
              simp [ih rest hlen]
            · rw [if_neg h4]
              by_cases h5 : isRussianAll c
              · rw [if_pos h5]
                by_cases h6 : st
                · rw [if_pos h6]
                  simp [List.any_cons, ih rest hlen, isRussianChar_eq_isRussianAll,
                    isRussianAll_ruUpper c h5, h5]
                · rw [if_neg h6]
                  by_cases h7 : isRussianUpper c
                  · rw [if_pos h7]
                    by_cases h8 : wordHasLowerRussian rest
                    · rw [if_pos h8]
                      simp [List.any_cons, ih rest hlen, isRussianChar_eq_isRussianAll,
                        isRussianAll_ruLower c h7, h5]
                    · rw [if_neg h8]
                      simp [ih rest hlen]
                  · rw [if_neg h7]
                    simp [ih rest hlen]
              · rw [if_neg h5]
                by_cases h6 : pyIsAlpha c
                · rw [if_pos h6]
                  simp [ih rest hlen]
                · rw [if_neg h6]
                  simp [ih rest hlen]

theorem fixAux_any_russian (T : List Char) (st : Bool) (p1 p2 : Option Char) :
    (fixAux T st p1 p2).any isRussianChar = T.any isRussianChar :=
  fixAux_any_russian_fuel T.length T le_rfl st p1 p2

/-! ## The scan preserves the lowercase content of word spans -/

theorem isWordWs_false (c : Char) (h2 : c ≠ '\n') (h4 : ¬(c = ' ' ∨ c = '\t')) :
    isWordWs c = false := by
  simp only [isWordWs, decide_eq_false_iff_not]
  rintro (h | h | h)
  · exact h4 (Or.inl h)
  · exact h4 (Or.inr h)
  · exact h2 h

theorem isRussianLower_false_of_not_all (c : Char) (h5 : ¬(isRussianAll c = true)) :
    isRussianLower c = false := by
  cases h : isRussianLower c
  · rfl
  · exact absurd (by simp [isRussianAll, h]) h5

theorem isRussianLower_of_all_not_upper (c : Char) (h5 : isRussianAll c = true)
    (h7 : ¬(isRussianUpper c = true)) : isRussianLower c = true := by
  have h := h5
  rw [isRussianAll] at h
  rcases Bool.or_eq_true_iff.mp h with h | h
  · exact absurd h h7
  · exact h

theorem isRussianLower_false_of_upper (c : Char) (h7 : isRussianUpper c = true) :
    isRussianLower c = false := by
  have h1 := (isRussianUpper_iff c).mp h7
  cases h : isRussianLower c
  · rfl
  · exact absurd ((isRussianLower_iff c).mp h) (by omega)

theorem fixAux_wordHasLower_fuel :
    ∀ (n : Nat) (T : List Char), T.length ≤ n → ∀ (p1 p2 : Option Char),
      wordHasLowerRussian (fixAux T false p1 p2) = wordHasLowerRussian T := by
  intro n
  induction n with
  | zero =>
    intro T hT p1 p2
    have hnil : T = [] := List.length_eq_zero.mp (Nat.le_zero.mp hT)
    subst hnil
    rfl
  | succ n ih =>
    intro T hT p1 p2
    cases T with
    | nil => rfl
    | cons c rest =>
      have hlen : rest.length ≤ n := by
        simp only [List.length_cons] at hT
        omega
      rw [fixAux_cons]
      by_cases h1 : c = '§'
      · rw [if_pos h1]
        cases rest with
        | nil => subst h1; simp [fixAux_nil]
        | cons d rest2 =>
          have hlen2 : rest2.length ≤ n := by
            simp only [List.length_cons] at hT
            omega
          subst h1
          rw [wordHasLowerRussian_cons, wordHasLowerRussian_cons,
            wordHasLowerRussian_cons, wordHasLowerRussian_cons, ih rest2 hlen2]
      · rw [if_neg h1]
        by_cases h2 : c = '\n'
        · subst h2
          rw [if_pos rfl, wordHasLowerRussian_cons, wordHasLowerRussian_cons]
          simp [isWordWs]
        · rw [if_neg h2]
          by_cases h3 : c = '.' ∨ c = '!' ∨ c = '?'
          · rw [if_pos h3]
            have hcw : isWordWs c = false := by
              rcases h3 with rfl | rfl | rfl <;> decide
            have hcl : isRussianLower c = false := by
              rcases h3 with rfl | rfl | rfl <;> decide
            by_cases hws : 0 < countLeadingWs rest
            · -- a space or tab follows, so both word spans end here
              obtain ⟨w, rest2, rfl, hw⟩ := (countLeadingWs_pos_iff rest).mp hws
              rw [if_pos hws]
              rw [wordHasLowerRussian_cons, wordHasLowerRussian_cons, hcw, hcl]
              have hwspace : isWordWs w = true := by
                rcases hw with rfl | rfl <;> decide
              have hwne : ¬(w = '§') := by
                rcases hw with rfl | rfl <;> decide
              have hwne2 : ¬(w = '\n') := by
                rcases hw with rfl | rfl <;> decide
              have hwne3 : ¬(w = '.' ∨ w = '!' ∨ w = '?') := by
                rcases hw with rfl | rfl <;> decide
              rw [fixAux_cons, if_neg hwne, if_neg hwne2, if_neg hwne3, if_pos hw]
              rw [wordHasLowerRussian_cons, wordHasLowerRussian_cons, hwspace]
              simp
            · rw [if_neg hws]
              rw [wordHasLowerRussian_cons, wordHasLowerRussian_cons, hcw, hcl,
                ih rest hlen]
          · rw [if_neg h3]
            by_cases h4 : c = ' ' ∨ c = '\t'
            · rw [if_pos h4]
              have hcw : isWordWs c = true := by
                rcases h4 with rfl | rfl <;> decide
              rw [wordHasLowerRussian_cons, wordHasLowerRussian_cons, hcw]
              simp
            · rw [if_neg h4]
              have hcw : isWordWs c = false := isWordWs_false c h2 h4
              by_cases h5 : isRussianAll c
              · rw [if_pos h5]
                rw [if_neg (by simp : ¬(false = true))]
                by_cases h7 : isRussianUpper c
                · rw [if_pos h7]
                  have hcl : isRussianLower c = false := isRussianLower_false_of_upper c h7
                  by_cases h8 : wordHasLowerRussian rest
                  · rw [if_pos h8]
                    have hel : isRussianLower (ruLower c) = true := isRussianLower_ruLower c h7
                    have hew : isWordWs (ruLower c) = false := by
                      have hall := isRussianAll_ruLower c h7
                      exact (russian_not_special _ hall).2.2.2.2
                    rw [wordHasLowerRussian_cons, wordHasLowerRussian_cons, hcw, hcl, hew,
                      hel, h8]
                    simp
                  · rw [if_neg h8]
                    rw [wordHasLowerRussian_cons, wordHasLowerRussian_cons, hcw, hcl,
                      ih rest hlen]
                · rw [if_neg h7]
                  have hcl : isRussianLower c = true := isRussianLower_of_all_not_upper c h5 h7
                  rw [wordHasLowerRussian_cons, wordHasLowerRussian_cons, hcw, hcl]
                  simp
              · rw [if_neg h5]
                have hcl : isRussianLower c = false := isRussianLower_false_of_not_all c h5
                by_cases h6 : pyIsAlpha c
                · rw [if_pos h6]
                  rw [wordHasLowerRussian_cons, wordHasLowerRussian_cons, hcw, hcl,
                    ih rest hlen]
                · rw [if_neg h6]
                  rw [wordHasLowerRussian_cons, wordHasLowerRussian_cons, hcw, hcl,
                    ih rest hlen]

theorem fixAux_wordHasLower (T : List Char) (p1 p2 : Option Char) :
    wordHasLowerRussian (fixAux T false p1 p2) = wordHasLowerRussian T :=
  fixAux_wordHasLower_fuel T.length T le_rfl p1 p2

/-! ## Idempotence of the scan -/

theorem fixAux_idem_fuel :
    ∀ (n : Nat) (T : List Char), T.length ≤ n → ∀ (st : Bool) (p1 p2 : Option Char),
      fixAux (fixAux T st p1 p2) st p1 p2 = fixAux T st p1 p2 := by
  intro n
  induction n with
  | zero =>
    intro T hT st p1 p2
    have hnil : T = [] := List.length_eq_zero.mp (Nat.le_zero.mp hT)
    subst hnil
    rfl
  | succ n ih =>
    intro T hT st p1 p2
    cases T with
    | nil => rfl
    | cons c rest =>
      have hlen : rest.length ≤ n := by
        simp only [List.length_cons] at hT
        omega
      rw [fixAux_cons]
      by_cases h1 : c = '§'
      · rw [if_pos h1]
        subst h1
        cases rest with
        | nil => simp [fixAux_cons, fixAux_nil]
        | cons d rest2 =>
          have hlen2 : rest2.length ≤ n := by
            simp only [List.length_cons] at hT
            omega
          simp only []
          rw [fixAux_cons, if_pos rfl]
          simp only []
          rw [ih rest2 hlen2 st (some d) (some '§')]
      · rw [if_neg h1]
        by_cases h2 : c = '\n'
        · rw [if_pos h2, fixAux_cons, if_neg h1, if_pos h2,
            ih rest hlen true (some c) p1]
        · rw [if_neg h2]
          by_cases h3 : c = '.' ∨ c = '!' ∨ c = '?'
          · rw [if_pos h3]
            by_cases hws : 0 < countLeadingWs rest
            · rw [if_pos hws, fixAux_cons, if_neg h1, if_neg h2, if_pos h3,
                if_pos ((countLeadingWs_pos_fixAux rest _ (some c) p1).mpr hws),
                ih rest hlen (dotNewState p1 p2 st) (some c) p1]
            · rw [if_neg hws, fixAux_cons, if_neg h1, if_neg h2, if_pos h3,
                if_neg (fun hx => hws ((countLeadingWs_pos_fixAux rest _ (some c) p1).mp hx)),
                ih rest hlen st (some c) p1]
          · rw [if_neg h3]
            by_cases h4 : c = ' ' ∨ c = '\t'
            · rw [if_pos h4, fixAux_cons, if_neg h1, if_neg h2, if_neg h3, if_pos h4,
                ih rest hlen st (some c) p1]
            · rw [if_neg h4]
              by_cases h5 : isRussianAll c
              · rw [if_pos h5]
                by_cases h6 : st
                · rw [if_pos h6]
                  have hu : isRussianAll (ruUpper c) = true := isRussianAll_ruUpper c h5
                  have hns := russian_not_special _ hu
                  rw [fixAux_cons, if_neg hns.1, if_neg hns.2.1, if_neg hns.2.2.1,
                    if_neg hns.2.2.2.1, if_pos hu, if_pos h6, ruUpper_ruUpper c h5,
                    ih rest hlen false (some (ruUpper c)) p1]
                · rw [if_neg h6]
                  by_cases h7 : isRussianUpper c
                  · rw [if_pos h7]
                    by_cases h8 : wordHasLowerRussian rest
                    · rw [if_pos h8]
                      have hl : isRussianAll (ruLower c) = true := isRussianAll_ruLower c h7
                      have hns := russian_not_special _ hl
                      rw [fixAux_cons, if_neg hns.1, if_neg hns.2.1, if_neg hns.2.2.1,
                        if_neg hns.2.2.2.1, if_pos hl, if_neg h6,
                        if_neg (by simp [isRussianUpper_ruLower c h7]),
                        ih rest hlen false (some (ruLower c)) p1]
                    · rw [if_neg h8]
                      have hns := russian_not_special c h5
                      rw [fixAux_cons, if_neg hns.1, if_neg hns.2.1, if_neg hns.2.2.1,
                        if_neg hns.2.2.2.1, if_pos h5, if_neg h6, if_pos h7,
                        fixAux_wordHasLower rest (some c) p1, if_neg h8,
                        ih rest hlen false (some c) p1]
                  · rw [if_neg h7]
                    have hns := russian_not_special c h5
                    rw [fixAux_cons, if_neg hns.1, if_neg hns.2.1, if_neg hns.2.2.1,
                      if_neg hns.2.2.2.1, if_pos h5, if_neg h6, if_neg h7,
                      ih rest hlen false (some c) p1]
              · rw [if_neg h5]
                by_cases h6 : pyIsAlpha c
                · rw [if_pos h6, fixAux_cons, if_neg h1, if_neg h2, if_neg h3, if_neg h4,
                    if_neg h5, if_pos h6, ih rest hlen false (some c) p1]
                · rw [if_neg h6, fixAux_cons, if_neg h1, if_neg h2, if_neg h3, if_neg h4,
                    if_neg h5, if_neg h6, ih rest hlen st (some c) p1]

theorem fixAux_idem (T : List Char) (st : Bool) (p1 p2 : Option Char) :
    fixAux (fixAux T st p1 p2) st p1 p2 = fixAux T st p1 p2 :=
  fixAux_idem_fuel T.length T le_rfl st p1 p2

theorem fix_sentence_case_idem (s : String) :
    fix_sentence_case (fix_sentence_case s) = fix_sentence_case s := by
  rw [fix_sentence_case_eq s]
  by_cases h : has_russian s
  · rw [if_pos h]
    have h2 : has_russian (String.mk (fixAux s.data true none none)) = true := by
      show (fixAux s.data true none none).any isRussianChar = true
      rw [fixAux_any_russian]
      exact h
    rw [fix_sentence_case_eq, if_pos h2]
    show String.mk (fixAux (fixAux s.data true none none) true none none) = _
    rw [fixAux_idem]
  · rw [if_neg h, fix_sentence_case_eq, if_neg h]

/-! ## Structural induction support for `JSON` -/

theorem sizeOf_JSON_pos (d : JSON) : 0 < sizeOf d := by
  cases d <;> simp

theorem sizeOf_val_of_mem {k : String} {v : JSON} {kvs : List (String × JSON)}
    (h : (k, v) ∈ kvs) : sizeOf v < sizeOf kvs := by
  have h1 := List.sizeOf_lt_of_mem h
  have h2 : sizeOf (k, v) = 1 + sizeOf k + sizeOf v := by simp
  omega

theorem sizeOf_elem_of_mem {x : JSON} {xs : List JSON} (h : x ∈ xs) :
    sizeOf x < sizeOf xs :=
  List.sizeOf_lt_of_mem h

/-! ## Idempotence of `fix_value` -/

theorem fixKVs_idem_of (kvs : List (String × JSON))
    (h : ∀ k v, (k, v) ∈ kvs → fix_value (fix_value v) = fix_value v) :
    fixKVs (fixKVs kvs) = fixKVs kvs := by
  induction kvs with
  | nil => rfl
  | cons p rest ihl =>
    obtain ⟨k, v⟩ := p
    simp only [fixKVs]
    rw [h k v (List.mem_cons_self _ _),
      ihl (fun k2 v2 hm => h k2 v2 (List.mem_cons_of_mem _ hm))]

theorem fixList_idem_of (xs : List JSON)
    (h : ∀ x, x ∈ xs → fix_value (fix_value x) = fix_value x) :
    fixList (fixList xs) = fixList xs := by
  induction xs with
  | nil => rfl
  | cons x rest ihl =>
    simp only [fixList]
    rw [h x (List.mem_cons_self _ _),
      ihl (fun x2 hm => h x2 (List.mem_cons_of_mem _ hm))]

theorem fix_value_idem_fuel :
    ∀ (n : Nat) (d : JSON), sizeOf d ≤ n → fix_value (fix_value d) = fix_value d := by
  intro n
  induction n with
  | zero =>
    intro d h
    exact absurd h (by have := sizeOf_JSON_pos d; omega)
  | succ n ih =>
    intro d h
    cases d with
    | str s => simp [fix_value, fix_sentence_case_idem]
    | num m => rfl
    | bool b => rfl
    | null => rfl
    | obj kvs =>
      have hk : sizeOf kvs ≤ n := by
        have : sizeOf (JSON.obj kvs) = 1 + sizeOf kvs := by simp
        omega
      rw [fix_value, fix_value,
        fixKVs_idem_of kvs (fun k v hm => ih v (by have := sizeOf_val_of_mem hm; omega))]
    | arr xs =>
      have hk : sizeOf xs ≤ n := by
        have : sizeOf (JSON.arr xs) = 1 + sizeOf xs := by simp
        omega
      rw [fix_value, fix_value,
        fixList_idem_of xs (fun x hm => ih x (by have := sizeOf_elem_of_mem hm; omega))]

/-! ## Shape preservation of `fix_value` -/

theorem eraseKVs_fixKVs_of (kvs : List (String × JSON))
    (h : ∀ k v, (k, v) ∈ kvs → stringsErased (fix_value v) = stringsErased v) :
    eraseKVs (fixKVs kvs) = eraseKVs kvs := by
  induction kvs with
  | nil => rfl
  | cons p rest ihl =>
    obtain ⟨k, v⟩ := p
    simp only [fixKVs, eraseKVs]
    rw [h k v (List.mem_cons_self _ _),
      ihl (fun k2 v2 hm => h k2 v2 (List.mem_cons_of_mem _ hm))]

theorem eraseList_fixList_of (xs : List JSON)
    (h : ∀ x, x ∈ xs → stringsErased (fix_value x) = stringsErased x) :
    eraseList (fixList xs) = eraseList xs := by
  induction xs with
  | nil => rfl
  | cons x rest ihl =>
    simp only [fixList, eraseList]
    rw [h x (List.mem_cons_self _ _),
      ihl (fun x2 hm => h x2 (List.mem_cons_of_mem _ hm))]

theorem stringsErased_fix_value_fuel :
    ∀ (n : Nat) (d : JSON), sizeOf d ≤ n → stringsErased (fix_value d) = stringsErased d := by
  intro n
  induction n with
  | zero =>
    intro d h
    exact absurd h (by have := sizeOf_JSON_pos d; omega)
  | succ n ih =>
    intro d h
    cases d with
    | str s => rfl
    | num m => rfl
    | bool b => rfl
    | null => rfl
    | obj kvs =>
      have hk : sizeOf kvs ≤ n := by
        have : sizeOf (JSON.obj kvs) = 1 + sizeOf kvs := by simp
        omega
      rw [fix_value, stringsErased, stringsErased,
        eraseKVs_fixKVs_of kvs (fun k v hm => ih v (by have := sizeOf_val_of_mem hm; omega))]
    | arr xs =>
      have hk : sizeOf xs ≤ n := by
        have : sizeOf (JSON.arr xs) = 1 + sizeOf xs := by simp
        omega
      rw [fix_value, stringsErased, stringsErased,
        eraseList_fixList_of xs (fun x hm => ih x (by have := sizeOf_elem_of_mem hm; omega))]

/-! ## Merge lemmas: key sets, lookups, and sequence indexing -/

theorem keysOf_mergeObj (a r : List (String × JSON)) :
    keysOf (mergeObj a r) = keysOf a := by
  induction a with
  | nil => rfl
  | cons p rest ihl =>
    obtain ⟨k, v⟩ := p
    simp only [mergeObj, keysOf, List.map_cons]
    simp only [keysOf] at ihl
    rw [ihl]

theorem lookupJ_mergeObj (k : String) (a r : List (String × JSON)) :
    lookupJ k (mergeObj a r) =
      (lookupJ k a).map (fun v =>
        match lookupJ k r with
        | some rv => merge_recursive v rv
        | none => v) := by
  induction a with
  | nil => rfl
  | cons p rest ihl =>
    obtain ⟨k2, v⟩ := p
    simp only [mergeObj, lookupJ]
    by_cases hk : k2 = k
    · subst hk
      rw [if_pos rfl, if_pos rfl]
      rfl
    · rw [if_neg hk, if_neg hk, ihl]

theorem mergeArr_getElem (a r : List JSON) (i : Nat) :
    (mergeArr a r)[i]? =
      match a[i]?, r[i]? with
      | some x, some y => some (merge_recursive x y)
      | some x, none => some x
      | none, _ => none := by
  induction a generalizing r i with
  | nil => cases r <;> cases i <;> simp [mergeArr]
  | cons x rest ihl =>
    cases r with
    | nil =>
      cases i with
      | zero => simp [mergeArr]
      | succ j =>
        cases hx : rest[j]? with
        | none => simp [mergeArr, hx]
        | some v => simp [mergeArr, hx]
    | cons y rs =>
      cases i with
      | zero => simp [mergeArr]
      | succ j =>
        simp only [mergeArr, List.getElem?_cons_succ]
        exact ihl rs j

theorem mergeArr_length (a r : List JSON) : (mergeArr a r).length = a.length := by
  induction a generalizing r with
  | nil => rfl
  | cons x rest ihl =>
    cases r with
    | nil => rfl
    | cons y rs => simp [mergeArr, ihl rs]

/-! ### Constructor-shape unfoldings of `merge_recursive` -/

theorem merge_obj_obj (a r : List (String × JSON)) :
    merge_recursive (.obj a) (.obj r) = .obj (mergeObj a r) := rfl

theorem merge_arr_arr (a r : List JSON) :
    merge_recursive (.arr a) (.arr r) = .arr (mergeArr a r) := rfl

theorem merge_str_any (s : String) (E : JSON) :
    merge_recursive (.str s) E =
      (if has_russian s then .str s
       else match E with | .str t => .str t | _ => .str s) := rfl

theorem merge_obj_arr (a : List (String × JSON)) (r : List JSON) :
    merge_recursive (.obj a) (.arr r) = .obj a := rfl

theorem merge_obj_str (a : List (String × JSON)) (t : String) :
    merge_recursive (.obj a) (.str t) = .obj a := rfl

theorem merge_obj_num (a : List (String × JSON)) (m : Int) :
    merge_recursive (.obj a) (.num m) = .obj a := rfl

theorem merge_obj_bool (a : List (String × JSON)) (b : Bool) :
    merge_recursive (.obj a) (.bool b) = .obj a := rfl

theorem merge_obj_null (a : List (String × JSON)) :
    merge_recursive (.obj a) .null = .obj a := rfl

theorem merge_arr_obj (a : List JSON) (r : List (String × JSON)) :
    merge_recursive (.arr a) (.obj r) = .arr a := rfl

theorem merge_arr_str (a : List JSON) (t : String) :
    merge_recursive (.arr a) (.str t) = .arr a := rfl

theorem merge_arr_num (a : List JSON) (m : Int) :
    merge_recursive (.arr a) (.num m) = .arr a := rfl

theorem merge_arr_bool (a : List JSON) (b : Bool) :
    merge_recursive (.arr a) (.bool b) = .arr a := rfl

theorem merge_arr_null (a : List JSON) :
    merge_recursive (.arr a) .null = .arr a := rfl

theorem merge_num_any (m : Int) (E : JSON) : merge_recursive (.num m) E = .num m := rfl

theorem merge_bool_any (b : Bool) (E : JSON) : merge_recursive (.bool b) E = .bool b := rfl

theorem merge_null_any (E : JSON) : merge_recursive .null E = .null := rfl

/-- A string artifact always merges to a string leaf. -/
theorem merge_str_is_str (s : String) (E : JSON) :
    ∃ t, merge_recursive (.str s) E = .str t := by
  rw [merge_str_any]
  by_cases hr : has_russian s
  · exact ⟨s, by rw [if_pos hr]⟩
  · rw [if_neg hr]
    cases E with
    | str t => exact ⟨t, rfl⟩
    | obj o => exact ⟨s, rfl⟩
    | arr xs => exact ⟨s, rfl⟩
    | num m2 => exact ⟨s, rfl⟩
    | bool b => exact ⟨s, rfl⟩
    | null => exact ⟨s, rfl⟩

/-- The merged tree, followed down any path to a mapping, carries exactly the
key list of the incoming tree at that path. -/
theorem getAt_merge_keys :
    ∀ (p : List PathStep) (I E : JSON) (m : List (String × JSON)),
      getAt (merge_recursive I E) p = some (.obj m) →
      ∃ a, getAt I p = some (.obj a) ∧ keysOf m = keysOf a := by
  intro p
  induction p with
  | nil =>
    intro I E m h
    simp only [getAt, Option.some.injEq] at h
    cases I with
    | obj a =>
      cases E with
      | obj r =>
        rw [merge_obj_obj] at h
        cases h
        exact ⟨a, rfl, keysOf_mergeObj a r⟩
      | arr rxs => rw [merge_obj_arr] at h; cases h; exact ⟨_, rfl, rfl⟩
      | str t => rw [merge_obj_str] at h; cases h; exact ⟨_, rfl, rfl⟩
      | num m2 => rw [merge_obj_num] at h; cases h; exact ⟨_, rfl, rfl⟩
      | bool b => rw [merge_obj_bool] at h; cases h; exact ⟨_, rfl, rfl⟩
      | null => rw [merge_obj_null] at h; cases h; exact ⟨_, rfl, rfl⟩
    | arr xs =>
      cases E with
      | obj r => rw [merge_arr_obj] at h; cases h
      | arr rxs => rw [merge_arr_arr] at h; cases h
      | str t => rw [merge_arr_str] at h; cases h
      | num m2 => rw [merge_arr_num] at h; cases h
      | bool b => rw [merge_arr_bool] at h; cases h
      | null => rw [merge_arr_null] at h; cases h
    | str s =>
      obtain ⟨t, ht⟩ := merge_str_is_str s E
      rw [ht] at h
      cases h
    | num m2 => rw [merge_num_any] at h; cases h
    | bool b => rw [merge_bool_any] at h; cases h
    | null => rw [merge_null_any] at h; cases h
  | cons step p2 ih =>
    intro I E m h
    cases I with
    | obj a =>
      cases E with
      | obj r =>
        rw [merge_obj_obj] at h
        cases step with
        | inl k =>
          simp only [getAt, lookupJ_mergeObj] at h ⊢
          cases hl : lookupJ k a with
          | none => rw [hl] at h; simp at h
          | some va =>
            rw [hl] at h
            simp only [Option.map_some'] at h
            cases hr : lookupJ k r with
            | some rv =>
              rw [hr] at h
              exact ih va rv m h
            | none =>
              rw [hr] at h
              exact ⟨m, h, rfl⟩
        | inr i => simp [getAt] at h
      | arr rxs => rw [merge_obj_arr] at h; exact ⟨m, h, rfl⟩
      | str t => rw [merge_obj_str] at h; exact ⟨m, h, rfl⟩
      | num m2 => rw [merge_obj_num] at h; exact ⟨m, h, rfl⟩
      | bool b => rw [merge_obj_bool] at h; exact ⟨m, h, rfl⟩
      | null => rw [merge_obj_null] at h; exact ⟨m, h, rfl⟩
    | arr xs =>
      cases E with
      | arr rxs =>
        rw [merge_arr_arr] at h
        cases step with
        | inl k => simp [getAt] at h
        | inr i =>
          simp only [getAt, mergeArr_getElem] at h ⊢
          cases hx : xs[i]? with
          | none => rw [hx] at h; simp at h
          | some va =>
            rw [hx] at h
            cases hr : rxs[i]? with
            | some rv =>
              rw [hr] at h
              simp only [] at h
              exact ih va rv m h
            | none =>
              rw [hr] at h
              simp only [] at h
              exact ⟨m, h, rfl⟩
      | obj r => rw [merge_arr_obj] at h; exact ⟨m, h, rfl⟩
      | str t => rw [merge_arr_str] at h; exact ⟨m, h, rfl⟩
      | num m2 => rw [merge_arr_num] at h; exact ⟨m, h, rfl⟩
      | bool b => rw [merge_arr_bool] at h; exact ⟨m, h, rfl⟩
      | null => rw [merge_arr_null] at h; exact ⟨m, h, rfl⟩
    | str s =>
      obtain ⟨t, ht⟩ := merge_str_is_str s E
      rw [ht] at h
      cases step with
      | inl k => simp [getAt] at h
      | inr i => simp [getAt] at h
    | num m2 => rw [merge_num_any] at h; exact ⟨m, h, rfl⟩
    | bool b => rw [merge_bool_any] at h; exact ⟨m, h, rfl⟩
    | null => rw [merge_null_any] at h; exact ⟨m, h, rfl⟩

/-! ## Merging a well-formed tree with itself -/

theorem contains_false_not_mem {k : String} {l : List String}
    (h : l.contains k = false) : k ∉ l := by
  intro hm
  have h2 := List.elem_eq_true_of_mem hm
  rw [show l.contains k = l.elem k from rfl, h2] at h
  cases h

theorem lookupJ_of_nodup {k : String} {v : JSON} {a : List (String × JSON)}
    (hnd : nodupKeys (keysOf a) = true) (hm : (k, v) ∈ a) : lookupJ k a = some v := by
  induction a with
  | nil => cases hm
  | cons p rest ihl =>
    obtain ⟨k2, v2⟩ := p
    simp only [keysOf, List.map_cons, nodupKeys, Bool.and_eq_true, Bool.not_eq_true'] at hnd
    rcases List.mem_cons.mp hm with heq | hrest
    · injection heq with h1 h2
      subst h1
      subst h2
      simp [lookupJ]
    · have hne : ¬(k2 = k) := by
        rintro rfl
        have : k2 ∈ keysOf rest := List.mem_map_of_mem Prod.fst hrest
        exact contains_false_not_mem hnd.1 (by simpa [keysOf] using this)
      simp only [lookupJ, if_neg hne]
      exact ihl (by simpa [keysOf] using hnd.2) hrest

theorem mergeObj_self_of (a r : List (String × JSON))
    (hl : ∀ k v, (k, v) ∈ a → lookupJ k r = some v)
    (hm : ∀ k v, (k, v) ∈ a → merge_recursive v v = v) :
    mergeObj a r = a := by
  induction a with
  | nil => rfl
  | cons p rest ihl =>
    obtain ⟨k, v⟩ := p
    simp only [mergeObj]
    rw [hl k v (List.mem_cons_self _ _)]
    show (k, merge_recursive v v) :: mergeObj rest r = (k, v) :: rest
    rw [hm k v (List.mem_cons_self _ _),
      ihl (fun k2 v2 h => hl k2 v2 (List.mem_cons_of_mem _ h))
        (fun k2 v2 h => hm k2 v2 (List.mem_cons_of_mem _ h))]

theorem mergeArr_self_of (xs : List JSON)
    (hm : ∀ x, x ∈ xs → merge_recursive x x = x) :
    mergeArr xs xs = xs := by
  induction xs with
  | nil => rfl
  | cons x rest ihl =>
    simp only [mergeArr]
    rw [hm x (List.mem_cons_self _ _),
      ihl (fun x2 h => hm x2 (List.mem_cons_of_mem _ h))]

theorem wfKVs_mem {k : String} {v : JSON} {kvs : List (String × JSON)}
    (h : wfKVs kvs = true) (hm : (k, v) ∈ kvs) : wfJSON v = true := by
  induction kvs with
  | nil => cases hm
  | cons p rest ihl =>
    obtain ⟨k2, v2⟩ := p
    simp only [wfKVs, Bool.and_eq_true] at h
    rcases List.mem_cons.mp hm with heq | hrest
    · injection heq with h1 h2
      subst h2
      exact h.1
    · exact ihl h.2 hrest

theorem wfList_mem {x : JSON} {xs : List JSON}
    (h : wfList xs = true) (hm : x ∈ xs) : wfJSON x = true := by
  induction xs with
  | nil => cases hm
  | cons y rest ihl =>
    simp only [wfList, Bool.and_eq_true] at h
    rcases List.mem_cons.mp hm with rfl | hrest
    · exact h.1
    · exact ihl h.2 hrest

theorem merge_self_fuel :
    ∀ (n : Nat) (T : JSON), sizeOf T ≤ n → wfJSON T = true →
      merge_recursive T T = T := by
  intro n
  induction n with
  | zero =>
    intro T h _
    exact absurd h (by have := sizeOf_JSON_pos T; omega)
  | succ n ih =>
    intro T h hwf
    cases T with
    | str s =>
      rw [merge_str_any]
      split_ifs <;> rfl
    | num m => rfl
    | bool b => rfl
    | null => rfl
    | obj kvs =>
      have hk : sizeOf kvs ≤ n := by
        have : sizeOf (JSON.obj kvs) = 1 + sizeOf kvs := by simp
        omega
      simp only [wfJSON, Bool.and_eq_true] at hwf
      rw [merge_obj_obj,
        mergeObj_self_of kvs kvs (fun k v hm => lookupJ_of_nodup hwf.1 hm)
          (fun k v hm =>
            ih v (by have := sizeOf_val_of_mem hm; omega) (wfKVs_mem hwf.2 hm))]
    | arr xs =>
      have hk : sizeOf xs ≤ n := by
        have : sizeOf (JSON.arr xs) = 1 + sizeOf xs := by simp
        omega
      rw [wfJSON] at hwf
      rw [merge_arr_arr,
        mergeArr_self_of xs (fun x hm =>
          ih x (by have := sizeOf_elem_of_mem hm; omega) (wfList_mem hwf hm))]

theorem merge_self (T : JSON) (h : wfJSON T = true) : merge_recursive T T = T :=
  merge_self_fuel (sizeOf T) T le_rfl h

/-! # Claim theorems -/

/-- C1: for every incoming tree `I` and existing tree `E`, wherever the merge
result carries a mapping (at any path), the incoming tree carries a mapping at
the same path with exactly the same key list: every key of `I` is present, no
key present only in `E` survives, and on mismatched types the incoming value
is taken wholesale, so the law holds at every mapping level of the result. -/
theorem claim_C1_merge_keyset (I E : JSON) (p : List PathStep)
    (m : List (String × JSON))
    (h : getAt (merge_recursive I E) p = some (.obj m)) :
    ∃ a, getAt I p = some (.obj a) ∧ keysOf m = keysOf a :=
  getAt_merge_keys p I E m h

/-- Witness for C1 at a concrete nested merge: the existing-only keys `"z"`
(top level) and `"y"` (nested level) are dropped while the incoming key list
survives verbatim. -/
theorem claim_C1_merge_keyset_witness :
    ∃ a, getAt (JSON.obj [("a", .obj [("x", .null)])]) [Sum.inl "a"] = some (.obj a) ∧
      keysOf [("x", JSON.null)] = keysOf a :=
  claim_C1_merge_keyset (.obj [("a", .obj [("x", .null)])])
    (.obj [("a", .obj [("y", .bool true)]), ("z", .null)])
    [Sum.inl "a"] [("x", JSON.null)] rfl

/-- C2: string-leaf merge policy.  When the incoming value is a string with a
Cyrillic character, it wins outright; with no Cyrillic character the existing
string is kept; with no Cyrillic character and a non-string existing value the
incoming string is taken. -/
theorem claim_C2_leaf_policy (s : String) (E : JSON) :
    (has_russian s = true → merge_recursive (.str s) E = .str s) ∧
    (has_russian s = false → ∀ t, E = .str t → merge_recursive (.str s) E = .str t) ∧
    (has_russian s = false → (∀ t, E ≠ .str t) → merge_recursive (.str s) E = .str s) := by
  refine ⟨?_, ?_, ?_⟩
  · intro h
    rw [merge_str_any, if_pos h]
  · rintro h t rfl
    rw [merge_str_any, if_neg (by simp [h])]
  · intro h hne
    rw [merge_str_any, if_neg (by simp [h])]
    cases E with
    | str t => exact absurd rfl (hne t)
    | obj o => rfl
    | arr xs => rfl
    | num m => rfl
    | bool b => rfl
    | null => rfl

/-- Witness for C2: a translated value overwrites, an untranslated value
defers to the existing string, and an untranslated value replaces a
non-string existing leaf. -/
theorem claim_C2_leaf_policy_witness :
    merge_recursive (.str "привет") (.str "old") = .str "привет" ∧
    merge_recursive (.str "hello") (.str "старый") = .str "старый" ∧
    merge_recursive (.str "hello") .null = .str "hello" :=
  ⟨(claim_C2_leaf_policy "привет" (.str "old")).1 (by decide),
   (claim_C2_leaf_policy "hello" (.str "старый")).2.1 (by decide) "старый" rfl,
   (claim_C2_leaf_policy "hello" .null).2.2 (by decide) (fun t h => by cases h)⟩

/-- C3: normalization is idempotent, both on whole documents and on every
string leaf. -/
theorem claim_C3_normalize_idempotent :
    (∀ d : JSON, fix_value (fix_value d) = fix_value d) ∧
    (∀ s : String, fix_sentence_case (fix_sentence_case s) = fix_sentence_case s) :=
  ⟨fun d => fix_value_idem_fuel (sizeOf d) d le_rfl, fix_sentence_case_idem⟩

/-- C4 counterexample: the claim's abbreviation look-back accepts any
"whitespace" before the lone letter, but the code only accepts a space or a
tab (`' \t.!?'`).  In `"п\nт. б"` the letter before the period is the single
Russian letter `т` preceded by a newline — whitespace, so the claim predicts
no sentence boundary and an unchanged `б` — yet the code declares a boundary
and capitalizes it. -/
theorem claim_C4_counterexample :
    fix_sentence_case "п\nт. б" = "П\nТ. Б" ∧
    fix_sentence_case "п\nт. б" ≠ "П\nТ. б" := by
  exact ⟨by decide, by decide⟩

/-- C4 (amended): when sentence punctuation is followed by at least one space
or tab, the scan declares a sentence boundary (state becomes `true`) unless
the character emitted just before the punctuation is a single Russian letter
whose own predecessor is absent (start of string) or one of space, tab,
`'.'`, `'!'`, `'?'` — in which case the state is left unchanged. -/
theorem claim_C4_lookback_amended (c : Char) (rest : List Char) (st : Bool)
    (p1 p2 : Option Char) (hc : c = '.' ∨ c = '!' ∨ c = '?')
    (hws : 0 < countLeadingWs rest) :
    fixAux (c :: rest) st p1 p2 =
      c :: fixAux rest
        (if (match p1 with
             | some kc => isRussianAll kc &&
                 (match p2 with | none => true | some bk => isStopChar bk)
             | none => false) = true
         then st else true)
        (some c) p1 := by
  have h1 : ¬(c = '§') := by rcases hc with rfl | rfl | rfl <;> decide
  have h2 : ¬(c = '\n') := by rcases hc with rfl | rfl | rfl <;> decide
  have hstate :
      dotNewState p1 p2 st =
        (if (match p1 with
             | some kc => isRussianAll kc &&
                 (match p2 with | none => true | some bk => isStopChar bk)
             | none => false) = true
         then st else true) := by
    cases p1 with
    | none => rfl
    | some kc =>
      cases p2 with
      | none =>
        by_cases hk : isRussianAll kc <;> simp [dotNewState, hk]
      | some bk =>
        by_cases hk : isRussianAll kc <;> by_cases hb : isStopChar bk <;>
          simp [dotNewState, hk, hb]
  rw [fixAux_cons, if_neg h1, if_neg h2, if_pos hc, if_pos hws, hstate]

/-- Witness for the amended C4 at a period with no preceding character:
the look-back finds nothing, so a boundary is declared. -/
theorem claim_C4_lookback_amended_witness :
    fixAux ['.', ' ', 'б'] false none none =
      '.' :: fixAux [' ', 'б'] true (some '.') none := by
  have h := claim_C4_lookback_amended '.' [' ', 'б'] false none none
    (Or.inl rfl) (by decide)
  simpa using h

/-- C5 counterexample: the claim decides the all-caps check over the whole
word span containing the letter, but the code scans only forward from the
letter.  In `"x яБ"` the span `"яБ"` of the uppercase `Б` contains the
lowercase Russian letter `я` before it, so the claim predicts `Б` is lowered
to `б`; the code leaves it unchanged because nothing lowercase follows it. -/
theorem claim_C5_counterexample :
    fix_sentence_case "x яБ" = "x яБ" ∧
    fix_sentence_case "x яБ" ≠ "x яб" := by
  exact ⟨by decide, by decide⟩

/-- C5 (amended): a mid-sentence uppercase Russian letter is emitted in
lowercase exactly when the part of its word span strictly after it (scanning
forward up to the next space, tab, newline or end of string) contains a
lowercase Russian letter; otherwise it is emitted unchanged.  The lowered
form really is a different, lowercase letter. -/
theorem claim_C5_allcaps_amended (c : Char) (rest : List Char)
    (p1 p2 : Option Char) (hup : isRussianUpper c = true) :
    fixAux (c :: rest) false p1 p2 =
      (if (rest.takeWhile (fun d => !isWordWs d)).any isRussianLower
       then ruLower c else c) ::
        fixAux rest false
          (some (if (rest.takeWhile (fun d => !isWordWs d)).any isRussianLower
                 then ruLower c else c)) p1 ∧
    isRussianLower (ruLower c) = true ∧ ruLower c ≠ c := by
  have hall : isRussianAll c = true := by simp [isRussianAll, hup]
  have hns := russian_not_special c hall
  refine ⟨?_, isRussianLower_ruLower c hup, ruLower_ne_self c hup⟩
  rw [fixAux_cons, if_neg hns.1, if_neg hns.2.1, if_neg hns.2.2.1, if_neg hns.2.2.2.1,
    if_pos hall, if_neg (by simp : ¬(false = true)), if_pos hup]
  rfl

/-- Witness for the amended C5: `Б` followed in its word by the lowercase
`в` is lowered to `б`. -/
theorem claim_C5_allcaps_amended_witness :
    fixAux ['Б', 'в'] false none none = 'б' :: fixAux ['в'] false (some 'б') none := by
  have h := (claim_C5_allcaps_amended 'Б' ['в'] none none (by decide)).1
  have hb : (if (List.takeWhile (fun d => !isWordWs d) ['в']).any isRussianLower
      then ruLower 'Б' else 'Б') = 'б' := by decide
  rw [h, hb]

/-- C6 counterexample: the claim says the marker+char pair never affects the
capitalization decision of any other character, but the pair's payload is
visible to the word-span scan: in `"x Б§б"` the payload `б` makes the span of
`Б` contain a lowercase Russian letter, so `Б` is lowered — while in `"x Б"`,
without the pair, `Б` is left unchanged. -/
theorem claim_C6_counterexample :
    fix_sentence_case "x Б§б" = "x б§б" ∧
    fix_sentence_case "x Б" = "x Б" := by
  exact ⟨by decide, by decide⟩

/-- C6 (amended): a marker followed by one more character is copied verbatim
as an atomic two-character unit, the sentence state passes through unchanged,
and the pair's own two characters are never case-changed; the pair's
characters do, however, participate in the word-span scan and the
sentence-boundary look-back that decide the capitalization of other
characters. -/
theorem claim_C6_format_code_amended (d : Char) (rest : List Char) (st : Bool)
    (p1 p2 : Option Char) :
    fixAux ('§' :: d :: rest) st p1 p2 =
      '§' :: d :: fixAux rest st (some d) (some '§') := by
  rw [fixAux_cons, if_pos rfl]

/-- C7: merging two sequences yields a sequence of exactly the incoming
length; at each index both-present elements are merged recursively,
incoming-only elements are taken as-is, and existing-only indices contribute
nothing. -/
theorem claim_C7_sequence_merge (a r : List JSON) (i : Nat) :
    merge_recursive (.arr a) (.arr r) = .arr (mergeArr a r) ∧
    (mergeArr a r).length = a.length ∧
    (mergeArr a r)[i]? =
      (match a[i]?, r[i]? with
       | some x, some y => some (merge_recursive x y)
       | some x, none => some x
       | none, _ => none) :=
  ⟨merge_arr_arr a r, mergeArr_length a r, mergeArr_getElem a r i⟩

/-- C8: normalization preserves shape.  Erasing every string leaf is the
identity on structure (key lists with their order, sequence lengths, and
number / boolean / null leaves), and `fix_value` commutes with that erasure,
so it can only rewrite string leaves. -/
theorem claim_C8_shape_preservation (d : JSON) :
    stringsErased (fix_value d) = stringsErased d :=
  stringsErased_fix_value_fuel (sizeOf d) d le_rfl

/-- C9: the scan is total; in particular a trailing format-code marker with
no following character is emitted as a literal single character instead of
raising, as on the concrete string `"б§"`. -/
theorem claim_C9_trailing_marker :
    (∀ (st : Bool) (p1 p2 : Option Char), fixAux ['§'] st p1 p2 = ['§']) ∧
    fix_sentence_case "б§" = "Б§" := by
  constructor
  · intro st p1 p2
    rw [fixAux_cons, if_pos rfl]
    rfl
  · decide

/-- C10: merging a well-formed tree (a JSON document: every mapping has
pairwise-distinct keys) with itself is the identity. -/
theorem claim_C10_merge_self_identity (T : JSON) (h : wfJSON T = true) :
    merge_recursive T T = T :=
  merge_self T h

/-- Witness for C10 on a nested document with all leaf kinds. -/
theorem claim_C10_merge_self_identity_witness :
    wfJSON (JSON.obj [("a", .str "привет"), ("b", .arr [.num 1, .bool true, .null]),
      ("c", .obj [("d", .str "x")])]) = true ∧
    merge_recursive
      (JSON.obj [("a", .str "привет"), ("b", .arr [.num 1, .bool true, .null]),
        ("c", .obj [("d", .str "x")])])
      (JSON.obj [("a", .str "привет"), ("b", .arr [.num 1, .bool true, .null]),
        ("c", .obj [("d", .str "x")])]) =
      JSON.obj [("a", .str "привет"), ("b", .arr [.num 1, .bool true, .null]),
        ("c", .obj [("d", .str "x")])] :=
  ⟨rfl, claim_C10_merge_self_identity _ rfl⟩
